import Mathlib

set_option autoImplicit false

/-
Verification of the ollama-mcp-bridge core: the MCP client transport or
correlation layer (src/src/mcp-client.ts) and the bridge orchestration loop
(src/src/bridge.ts). The embedding is shallow: each TypeScript function is
translated to a Lean function over explicit state; external collaborators
(the LLM HTTP client, the tool registry, the child process) are abstracted
as oracles supplied in an environment record.
-/

namespace Bridge

namespace MCPClient

/-!
Transport layer: `MCPClient.handleResponse` (src/src/mcp-client.ts, lines
146-160).  Inbound bytes are modelled as `List Char`.  The source appends
the chunk to `responseBuffer`, then repeatedly extracts the substring up to
the next newline, trims it, and emits it when non-empty; the remainder stays
in the buffer.
-/

/-- Find the first newline in the buffer: returns the text before it and the
text after it, or `none` when the buffer holds no newline.  This models the
`indexOf('\n')` / `slice` pair in `handleResponse`. -/
def splitFirstLine : List Char → Option (List Char × List Char)
  | [] => none
  | c :: rest =>
    if c = '\n' then some ([], rest)
    else
      match splitFirstLine rest with
      | none => none
      | some (l, r) => some (c :: l, r)

theorem splitFirstLine_length {buf l r : List Char}
    (h : splitFirstLine buf = some (l, r)) : r.length < buf.length := by
  induction buf generalizing l r with
  | nil => simp [splitFirstLine] at h
  | cons c rest ih =>
    by_cases hc : c = '\n'
    · simp [splitFirstLine, hc] at h
      simp [h.2]
    · simp only [splitFirstLine, hc, if_false] at h
      cases hsp : splitFirstLine rest with
      | none => rw [hsp] at h; simp at h
      | some lr =>
        rw [hsp] at h
        obtain ⟨l', r'⟩ := lr
        simp at h
        have := ih hsp
        simp [← h.2]
        omega

/-- The drain loop of `handleResponse`: while the buffer contains a newline,
split off the first line and keep draining the remainder.  Returns the raw
extracted lines in order together with the final (newline-free) leftover. -/
def drainBuffer (buf : List Char) : List (List Char) × List Char :=
  match h : splitFirstLine buf with
  | none => ([], buf)
  | some (line, rest) =>
    let p := drainBuffer rest
    (line :: p.1, p.2)
termination_by buf.length
decreasing_by exact splitFirstLine_length h

/-- Char-by-char reformulation of `drainBuffer`, used as the proof vehicle
for the buffer-reassembly invariant.  Proved equal to `drainBuffer` in
`drainBuffer_eq_extractLines`. -/
def extractLines : List Char → List (List Char) × List Char
  | [] => ([], [])
  | c :: rest =>
    let p := extractLines rest
    if c = '\n' then ([] :: p.1, p.2)
    else
      match p with
      | ([], lo) => ([], c :: lo)
      | (m :: ms, lo) => ((c :: m) :: ms, lo)

theorem splitFirstLine_none {buf : List Char} (h : splitFirstLine buf = none) :
    extractLines buf = ([], buf) := by
  induction buf with
  | nil => rfl
  | cons c rest ih =>
    by_cases hc : c = '\n'
    · simp [splitFirstLine, hc] at h
    · simp only [splitFirstLine, hc, if_false] at h
      cases hsp : splitFirstLine rest with
      | none => simp [extractLines, hc, ih hsp]
      | some lr => rw [hsp] at h; simp at h

theorem splitFirstLine_some {buf l r : List Char}
    (h : splitFirstLine buf = some (l, r)) :
    extractLines buf = (l :: (extractLines r).1, (extractLines r).2) := by
  induction buf generalizing l r with
  | nil => simp [splitFirstLine] at h
  | cons c rest ih =>
    by_cases hc : c = '\n'
    · simp [splitFirstLine, hc] at h
      simp [extractLines, hc, h.1, h.2]
    · simp only [splitFirstLine, hc, if_false] at h
      cases hsp : splitFirstLine rest with
      | none => rw [hsp] at h; simp at h
      | some lr =>
        rw [hsp] at h
        obtain ⟨l', r'⟩ := lr
        simp at h
        have hrest := ih hsp
        simp only [extractLines, hc, if_false]
        rw [hrest, ← h.1, ← h.2]

theorem drainBuffer_eq_extractLines (buf : List Char) :
    drainBuffer buf = extractLines buf := by
  generalize hn : buf.length = n
  induction n using Nat.strong_induction_on generalizing buf with
  | _ n ih =>
    rw [drainBuffer]
    cases h : splitFirstLine buf with
    | none => exact (splitFirstLine_none h).symm
    | some lr =>
      obtain ⟨line, rest⟩ := lr
      have hlen := splitFirstLine_length h
      have := ih rest.length (by omega) rest rfl
      simp only [this, splitFirstLine_some h]

/-- How the extraction result of a concatenation `xs ++ ys` is assembled from
the extraction results of `xs` and `ys`: the leftover of `xs` is glued onto
the first line completed inside `ys` (or onto the leftover of `ys` when `ys`
completes no line). -/
def combineExtract (p q : List (List Char) × List Char) :
    List (List Char) × List Char :=
  match q.1 with
  | [] => (p.1, p.2 ++ q.2)
  | m :: ms => (p.1 ++ (p.2 ++ m) :: ms, q.2)

theorem extractLines_append (xs ys : List Char) :
    extractLines (xs ++ ys) = combineExtract (extractLines xs) (extractLines ys) := by
  induction xs with
  | nil =>
    cases hy : extractLines ys with
    | mk ms2 lo2 =>
      cases ms2 <;> simp [extractLines, combineExtract, hy]
  | cons c rest ih =>
    cases hr : extractLines rest with
    | mk ms1 lo1 =>
      rw [hr] at ih
      by_cases hc : c = '\n'
      · cases hm2 : (extractLines ys).1 with
        | nil =>
          cases ms1 <;>
            simp [extractLines, hc, ih, combineExtract, hr, hm2]
        | cons m ms =>
          cases ms1 <;>
            simp [extractLines, hc, ih, combineExtract, hr, hm2]
      · cases hm2 : (extractLines ys).1 with
        | nil =>
          cases ms1 <;>
            simp [extractLines, hc, ih, combineExtract, hr, hm2]
        | cons m ms =>
          cases ms1 <;>
            simp [extractLines, hc, ih, combineExtract, hr, hm2]

theorem extractLines_leftover_no_newline (buf : List Char) :
    '\n' ∉ (extractLines buf).2 := by
  induction buf with
  | nil => simp [extractLines]
  | cons c rest ih =>
    cases h : extractLines rest with
    | mk ms lo =>
      rw [h] at ih
      by_cases hc : c = '\n'
      · simpa [extractLines, hc, h] using ih
      · cases ms with
        | nil =>
          simp only [extractLines, h, if_neg hc]
          intro hmem
          rcases List.mem_cons.mp hmem with h1 | h2
          · exact hc h1.symm
          · exact ih h2
        | cons m ms2 =>
          simpa [extractLines, hc, h] using ih

theorem extractLines_of_no_newline {buf : List Char} (h : '\n' ∉ buf) :
    extractLines buf = ([], buf) := by
  induction buf with
  | nil => rfl
  | cons c rest ih =>
    simp only [List.mem_cons, not_or] at h
    have hc : ¬ c = '\n' := fun hcc => h.1 hcc.symm
    simp [extractLines, hc, ih h.2]

/-- Trimming of a line, modelling JavaScript `String.trim()`: whitespace is
removed from both ends. -/
def trimChars (l : List Char) : List Char :=
  ((l.dropWhile Char.isWhitespace).reverse.dropWhile Char.isWhitespace).reverse

/-- `MCPClient.handleResponse` (src/src/mcp-client.ts, lines 146-160) on one
inbound chunk: append the chunk to the buffer, drain every complete
newline-terminated line, trim each, and emit the non-empty ones (those are
the lines handed to `processMessage`); the trailing partial line stays in
the buffer.  Returns (emitted message lines, new buffer). -/
def handleResponse (buffer data : List Char) :
    List (List Char) × List Char :=
  let p := drainBuffer (buffer ++ data)
  ((p.1.map trimChars).filter (fun l => l ≠ []), p.2)

/-- Feed a sequence of chunks to `handleResponse` one at a time, starting
from `buffer`, collecting all emitted message lines in order together with
the final buffer. -/
def feedChunks (buffer : List Char) : List (List Char) → List (List Char) × List Char
  | [] => ([], buffer)
  | d :: ds =>
    let p := handleResponse buffer d
    let q := feedChunks p.2 ds
    (p.1 ++ q.1, q.2)

theorem handleResponse_eq (buffer data : List Char) :
    handleResponse buffer data =
      (((extractLines (buffer ++ data)).1.map trimChars).filter (fun l => l ≠ []),
        (extractLines (buffer ++ data)).2) := by
  simp [handleResponse, drainBuffer_eq_extractLines]

theorem feedChunks_eq (buffer : List Char) (chunks : List (List Char))
    (hb : '\n' ∉ buffer) :
    feedChunks buffer chunks =
      (((extractLines (buffer ++ chunks.flatten)).1.map trimChars).filter
          (fun l => l ≠ []),
        (extractLines (buffer ++ chunks.flatten)).2) := by
  induction chunks generalizing buffer with
  | nil =>
    simp [feedChunks, extractLines_of_no_newline hb]
  | cons d ds ih =>
    cases hP : extractLines (buffer ++ d) with
    | mk ms1 lo1 =>
      have hlo : '\n' ∉ lo1 := by
        have := extractLines_leftover_no_newline (buffer ++ d)
        rwa [hP] at this
      have hmid : extractLines (lo1 ++ ds.flatten) =
          combineExtract ([], lo1) (extractLines ds.flatten) := by
        rw [extractLines_append, extractLines_of_no_newline hlo]
      have hjoin : buffer ++ (d :: ds).flatten = (buffer ++ d) ++ ds.flatten := by
        simp
      simp only [feedChunks, handleResponse_eq, hP, ih _ hlo, hjoin,
        extractLines_append, hP, hmid]
      cases h : (extractLines ds.flatten).1 with
      | nil => simp [combineExtract, h]
      | cons m ms => simp [combineExtract, h, List.filter_append]

end MCPClient

/-- A minimal JSON value, modelling the payloads that `JSON.parse` can
produce on inbound lines. -/
inductive JVal where
  | null
  | bool (b : Bool)
  | num (n : Int)
  | str (s : String)
  | arr (elems : List JVal)
  | obj (fields : List (String × JVal))

namespace MCPClient

/-!
Correlation layer: pending-request bookkeeping of `MCPClient`
(src/src/mcp-client.ts).  A queued entry holds the outgoing message, of
which only the id participates in correlation; the success and failure
continuations are represented by the emitted `Outcome`.
-/

/-- One entry of `messageQueue`: the recorded request message, reduced to
the only field correlation reads, `message.id`. -/
structure PendingEntry where
  id : Nat

/-- A decoded inbound line, as consumed by `MCPClient.processMessage`:
`id` is the response correlation id (`none` when the line carries no id),
`error` holds `error.message` when an error object is present, and
`result` is the `result` payload (`none` for `undefined`). -/
structure InboundResponse where
  id : Option Nat
  error : Option String
  result : Option JVal

/-- Which continuation of a pending request was invoked, and with what. -/
inductive Outcome where
  | resolved (result : Option JVal)
  | rejected (msg : String)

/-- `MCPClient.processMessage` (src/src/mcp-client.ts, lines 162-182),
restricted to its correlation effect on `messageQueue`: find the pending
message with the response's id; if found, reject it with the error message
when the response carries an error and resolve it with the result
otherwise, then drop every entry with that id from the queue.  When no
entry matches, nothing happens.  Returns the new queue and the invoked
continuation, if any. -/
def processMessage (queue : List PendingEntry) (r : InboundResponse) :
    List PendingEntry × Option (Nat × Outcome) :=
  match queue.find? (fun m => some m.id == r.id) with
  | none => (queue, none)
  | some m =>
    let out :=
      match r.error with
      | some emsg => Outcome.rejected emsg
      | none => Outcome.resolved r.result
    (queue.filter (fun m2 => !(some m2.id == r.id)), some (m.id, out))

/-- The error message produced when the 30 000 ms timer of `sendMessage`
fires for message `id` (src/src/mcp-client.ts, line 196). -/
def timeoutMessage (id : Nat) : String :=
  "[MCP Client] Message timeout after 30 seconds for message id: " ++ toString id

/-- The timer callback installed by `sendMessage`
(src/src/mcp-client.ts, lines 192-198): look up the pending entry by id;
when still present, splice it out of the queue and reject the request with
the timeout error; when already gone, do nothing. -/
def timeoutFire (queue : List PendingEntry) (id : Nat) :
    List PendingEntry × Option (Nat × Outcome) :=
  match queue.findIdx? (fun m => m.id == id) with
  | none => (queue, none)
  | some i => (queue.eraseIdx i, some (id, Outcome.rejected (timeoutMessage id)))

/-- An event observable by the correlation layer after a request is
pending: an inbound decoded response line, or a pending-request timer
firing. -/
inductive WireEvent where
  | response (r : InboundResponse)
  | timerFire (id : Nat)

def stepQueue (queue : List PendingEntry) :
    WireEvent → List PendingEntry × Option (Nat × Outcome)
  | .response r => processMessage queue r
  | .timerFire id => timeoutFire queue id

/-- Run a sequence of wire events against the queue, collecting every
invoked continuation in order. -/
def runQueue (queue : List PendingEntry) :
    List WireEvent → List PendingEntry × List (Nat × Outcome)
  | [] => (queue, [])
  | e :: es =>
    let p := stepQueue queue e
    let q := runQueue p.1 es
    (q.1, p.2.toList ++ q.2)

/-!
Session state and lifecycle: the instance fields of `MCPClient`
(src/src/mcp-client.ts, lines 7-16) and the operations `connect`,
`initialize` and `close`.  The child process, its pipes and the awaited
I/O results are abstracted as oracles in `ConnectEnv`.
-/

/-- The instance fields of an `MCPClient`.  The `process`, `stdin` and
`stdout` handles are tracked as presence flags. -/
structure MCPClientState where
  hasProcess : Bool
  hasStdin : Bool
  hasStdout : Bool
  initialized : Bool
  messageQueue : List PendingEntry
  nextMessageId : Nat
  serverCapabilities : Option JVal
  serverVersion : Option JVal
  availableTools : List String
  responseBuffer : List Char

/-- Field initializers of a freshly constructed `MCPClient`
(src/src/mcp-client.ts, lines 7-16): no process, not initialized, empty
queue and buffer, message ids starting at 1. -/
def initialState : MCPClientState :=
  { hasProcess := false, hasStdin := false, hasStdout := false,
    initialized := false, messageQueue := [], nextMessageId := 1,
    serverCapabilities := none, serverVersion := none,
    availableTools := [], responseBuffer := [] }

/-- `MCPClient.close` (src/src/mcp-client.ts, lines 292-307): kill the
process, null the pipes, clear the initialized flag, the cached tool set
and the response buffer.  The message queue is not touched and no pending
continuation is invoked. -/
def close (st : MCPClientState) : MCPClientState :=
  { st with hasProcess := false, hasStdin := false, hasStdout := false,
            initialized := false, availableTools := [], responseBuffer := [] }

end MCPClient

namespace MCPLLMBridge

/-!
Orchestration loop: `MCPLLMBridge.processMessage` and
`MCPLLMBridge.handleToolCalls` (src/src/bridge.ts, lines 111-274).  The
LLM client and the tool registry are external collaborators, abstracted as
oracles over an opaque client state `σ`; MCP tool execution (including the
30-second `Promise.race` bound) is an oracle returning either the final
output string or the thrown error message.
-/

/-- One requested tool call as delivered by the LLM client:
`{id, function: {name, arguments}}`, with the `function` fields flattened
(`name` is `function.name`, `arguments` is the arguments text
`function.arguments`). -/
structure ToolCall where
  id : String
  name : String
  arguments : String
deriving DecidableEq

/-- One entry pushed by `handleToolCalls`: the echoed tool call id and the
output string (the tool result, or an error string). -/
structure ToolResponse where
  tool_call_id : String
  output : String

/-- The LLM client's reply shape: `{content, isToolCall, toolCalls}`. -/
structure LLMResponse where
  content : String
  isToolCall : Bool
  toolCalls : List ToolCall

/-- A message sent back to the LLM: a tool result entry, or the synthetic
`{role: "system", content: ...}` instruction appended on the last
permitted iteration. -/
inductive ChatMsg where
  | toolResult (r : ToolResponse)
  | system (content : String)

/-- Oracles for the bridge's collaborators.  `ownerOf` is the `toolToMcp`
lookup (the owning MCP client, when registered); `parseArgs` is
`JSON.parse` on the arguments text; `callTool` is the raced MCP call,
already reduced to the final output string (the result when it is a
string, `JSON.stringify` of it otherwise) or the thrown error message
(including the 30-second timeout error); `invokeWithPrompt` and `invoke`
are the LLM client calls, threading its state and possibly throwing;
`detectAndPrep` is the tool-registry prompt detection that may set the
system prompt (src/src/bridge.ts, lines 113-123). -/
structure BridgeEnv (σ : Type) where
  ownerOf : String → Option String
  parseArgs : String → Except String JVal
  callTool : String → String → JVal → Except String String
  invokeWithPrompt : σ → String → Except String (LLMResponse × σ)
  invoke : σ → List ChatMsg → Except String (LLMResponse × σ)
  detectAndPrep : σ → String → σ

/-- `MCPLLMBridge.handleToolCalls` (src/src/bridge.ts, lines 227-274):
for each requested call in order, look up the owning MCP client (a missing
owner throws `No MCP found for tool: <name>`), parse the arguments, run
the raced MCP call; any error caught for one call is recorded as an
`Error: <message>` output entry for that call, never aborting the rest. -/
def handleToolCalls {σ : Type} (env : BridgeEnv σ) (toolCalls : List ToolCall) :
    List ToolResponse :=
  toolCalls.map (fun tc =>
    match env.ownerOf tc.name with
    | none => { tool_call_id := tc.id, output := "Error: " ++ ("No MCP found for tool: " ++ tc.name) }
    | some mcp =>
      match env.parseArgs tc.arguments with
      | .error e => { tool_call_id := tc.id, output := "Error: " ++ e }
      | .ok args =>
        match env.callTool mcp tc.name args with
        | .error e => { tool_call_id := tc.id, output := "Error: " ++ e }
        | .ok out => { tool_call_id := tc.id, output := out })

/-- The canonical signature of a batch of requested tool calls
(src/src/bridge.ts, lines 142-147): `JSON.stringify` of the ordered array
of `{name, args}` pairs, represented by the ordered list of pairs itself
(`JSON.stringify` is injective on this shape, so equality of the
serialized strings is equality of these lists). -/
def sigOf (toolCalls : List ToolCall) : List (String × String) :=
  toolCalls.map (fun tc => (tc.name, tc.arguments))

/-- The compiled tool-results block embedded in a forcing prompt
(src/src/bridge.ts, lines 153-159 and 202-209): empty when no results were
accumulated, otherwise a header followed by one numbered line per result. -/
def compiledResults (allToolResults : List ToolResponse) : String :=
  if allToolResults.length > 0 then
    "Here are the search results I\x27ve found:\n\n" ++
      String.join (allToolResults.enum.map (fun p =>
        "Result " ++ toString (p.1 + 1) ++ ": " ++ p.2.output ++ "\n\n"))
  else ""

/-- The forcing final prompt (src/src/bridge.ts, lines 162 and 212): the
original user message, the compiled results, and the instruction to answer
without another search request. -/
def mkFinalPrompt (message : String) (allToolResults : List ToolResponse) : String :=
  message ++ "\n\n" ++ compiledResults allToolResults ++
    "\n\nBased on these search results, please provide a comprehensive answer. Do not make another search request."

/-- The synthetic system instruction appended on the last permitted
iteration (src/src/bridge.ts, lines 185-189). -/
def lastChanceMessage : String :=
  "This is your last opportunity to use tools. After processing these results, please provide a final answer to the user\x27s question without requesting additional tool calls."

/-- Observable orchestration steps of one turn: a dispatched batch of tool
calls (one `handleToolCalls` round), or a forced-final invocation with the
synthesized prompt. -/
inductive TurnEvent where
  | dispatch (calls : List ToolCall)
  | finalForce (prompt : String)

def isDispatch : TurnEvent → Bool
  | .dispatch _ => true
  | .finalForce _ => false

/-- `maxIterations` (src/src/bridge.ts, line 132). -/
def maxIterations : Nat := 3

/-- The forced-final-answer block, duplicated verbatim in the source at
src/src/bridge.ts lines 149-166 (repeated signature) and lines 196-216
(ceiling reached): compile the accumulated tool results into the forcing
prompt, invoke the LLM once more with it, and return that reply's
`content` unconditionally. -/
def forceFinal {σ : Type} (env : BridgeEnv σ) (s : σ) (message : String)
    (allToolResults : List ToolResponse) :
    List TurnEvent × Except String String :=
  let finalPrompt := mkFinalPrompt message allToolResults
  match env.invokeWithPrompt s finalPrompt with
  | .error e => ([TurnEvent.finalForce finalPrompt], .error e)
  | .ok (resp, _) => ([TurnEvent.finalForce finalPrompt], .ok resp.content)

/-- The `while` loop of `processMessage` together with its post-loop
ceiling check (src/src/bridge.ts, lines 136-219).  `fuel` bounds the
remaining loop passes; the top-level call supplies
`fuel = maxIterations` and `iterationCount = 0`, so that
`fuel + iterationCount = maxIterations` and fuel exhaustion coincides with
the `iterationCount < maxIterations` guard turning false.  Returns the
orchestration events and either the turn's answer or a thrown error. -/
def runLoop {σ : Type} (env : BridgeEnv σ) (message : String) :
    Nat → σ → LLMResponse → Nat → List (List (String × String)) →
    List ToolResponse → List TurnEvent × Except String String
  | 0, s, response, _, _, allToolResults =>
    if response.isToolCall = true ∧ response.toolCalls ≠ [] then
      forceFinal env s message allToolResults
    else ([], .ok response.content)
  | fuel + 1, s, response, iterationCount, seenToolCalls, allToolResults =>
    if response.isToolCall = true ∧ response.toolCalls ≠ [] ∧
        iterationCount < maxIterations then
      let currentToolCall := sigOf response.toolCalls
      if seenToolCalls.contains currentToolCall then
        forceFinal env s message allToolResults
      else
        let toolResponses := handleToolCalls env response.toolCalls
        let allToolResults2 := allToolResults ++ toolResponses
        let llmRes :=
          if iterationCount + 1 ≥ maxIterations - 1 then
            env.invoke s (toolResponses.map ChatMsg.toolResult ++
              [ChatMsg.system lastChanceMessage])
          else
            env.invoke s (toolResponses.map ChatMsg.toolResult)
        match llmRes with
        | .error e => ([TurnEvent.dispatch response.toolCalls], .error e)
        | .ok (resp2, s2) =>
          let q := runLoop env message fuel s2 resp2 (iterationCount + 1)
            (currentToolCall :: seenToolCalls) allToolResults2
          (TurnEvent.dispatch response.toolCalls :: q.1, q.2)
    else
      if response.isToolCall = true ∧ response.toolCalls ≠ [] then
        forceFinal env s message allToolResults
      else ([], .ok response.content)

/-- The body of `MCPLLMBridge.processMessage` inside its `try` block
(src/src/bridge.ts, lines 112-219): registry-based prompt preparation, the
first LLM call, then the tool-call loop with
`iterationCount = 0`, empty `seenToolCalls` and empty `allToolResults`. -/
def processTurn {σ : Type} (env : BridgeEnv σ) (s : σ) (message : String) :
    List TurnEvent × Except String String :=
  let s1 := env.detectAndPrep s message
  match env.invokeWithPrompt s1 message with
  | .error e => ([], .error e)
  | .ok (response, s2) => runLoop env message maxIterations s2 response 0 [] []

/-- `MCPLLMBridge.processMessage` (src/src/bridge.ts, lines 111-225): the
turn body wrapped in the outermost catch, which converts any thrown error
into the string `Error processing message: <message>`. -/
def processMessage {σ : Type} (env : BridgeEnv σ) (s : σ) (message : String) :
    String :=
  match (processTurn env s message).2 with
  | .ok content => content
  | .error e => "Error processing message: " ++ e

end MCPLLMBridge

namespace MCPClient

/-!
Supporting lemmas about the correlation layer.
-/

theorem processMessage_no_match {queue : List PendingEntry} {r : InboundResponse}
    (h : ∀ m ∈ queue, some m.id ≠ r.id) :
    processMessage queue r = (queue, none) := by
  have hfind : queue.find? (fun m => some m.id == r.id) = none :=
    List.find?_eq_none.mpr (fun m hm => by simpa using h m hm)
  simp [processMessage, hfind]

theorem processMessage_match {queue : List PendingEntry} {r : InboundResponse}
    {i : Nat} (hid : r.id = some i) (hm : ∃ m ∈ queue, m.id = i) :
    processMessage queue r =
      (queue.filter (fun m2 => !(m2.id == i)),
        some (i, match r.error with
          | some e => Outcome.rejected e
          | none => Outcome.resolved r.result)) := by
  obtain ⟨m, hmem, hmi⟩ := hm
  cases hfind : queue.find? (fun m => some m.id == r.id) with
  | none =>
    exfalso
    exact List.find?_eq_none.mp hfind m hmem (by simp [hid, hmi])
  | some m' =>
    have hp := List.find?_some hfind
    rw [hid] at hp hfind
    have hm'i : m'.id = i := by simpa using hp
    simp only [processMessage, hid, hfind, hm'i]
    congr 1

theorem findIdx?_start_add {α : Type} (p : α → Bool) (l : List α) (i : Nat) :
    l.findIdx? p i = (l.findIdx? p 0).map (fun j => j + i) := by
  induction l generalizing i with
  | nil => rfl
  | cons x xs ih =>
    rw [List.findIdx?_cons, List.findIdx?_cons]
    by_cases h : p x = true
    · simp [h]
    · simp only [h, if_false]
      rw [ih (i + 1), ih 1]
      cases hx : xs.findIdx? p 0 with
      | none => simp
      | some j =>
        simp only [Bool.false_eq_true, if_false, Option.map_some', Option.some.injEq]
        omega

theorem findIdx?_some_pred {α : Type} {p : α → Bool} :
    ∀ {l : List α} {s k : Nat}, l.findIdx? p s = some k → ∃ a ∈ l, p a = true := by
  intro l
  induction l with
  | nil => intro s k h; simp [List.findIdx?] at h
  | cons x xs ih =>
    intro s k h
    rw [List.findIdx?_cons] at h
    by_cases hx : p x = true
    · exact ⟨x, List.mem_cons_self x xs, hx⟩
    · rw [if_neg hx] at h
      obtain ⟨a, ha, hpa⟩ := ih h
      exact ⟨a, List.mem_cons_of_mem x ha, hpa⟩

theorem timeoutFire_found {queue : List PendingEntry} {i : Nat}
    (hnodup : (queue.map PendingEntry.id).Nodup)
    (hm : ∃ m ∈ queue, m.id = i) :
    timeoutFire queue i =
      (queue.filter (fun m => !(m.id == i)),
        some (i, Outcome.rejected (timeoutMessage i))) := by
  induction queue with
  | nil =>
    obtain ⟨m, hmem, _⟩ := hm
    exact absurd hmem (List.not_mem_nil m)
  | cons m0 rest ih =>
    rw [List.map_cons, List.nodup_cons] at hnodup
    by_cases h0 : m0.id = i
    · have hnotin : ∀ m ∈ rest, m.id ≠ i := by
        intro m hm' heq
        exact hnodup.1 (by rw [h0, ← heq]; exact List.mem_map_of_mem PendingEntry.id hm')
      have hfilter : rest.filter (fun m => !(m.id == i)) = rest :=
        List.filter_eq_self.mpr (fun a ha => by simp [hnotin a ha])
      simp only [timeoutFire, List.findIdx?_cons]
      rw [if_pos (by simp [h0])]
      simp [List.filter_cons, h0, hfilter]
    · have hm' : ∃ m ∈ rest, m.id = i := by
        obtain ⟨m, hmem, hmi⟩ := hm
        rcases List.mem_cons.mp hmem with rfl | hmem'
        · exact absurd hmi h0
        · exact ⟨m, hmem', hmi⟩
      have hrec := ih hnodup.2 hm'
      cases hf : rest.findIdx? (fun m => m.id == i) with
      | none =>
        rw [timeoutFire, hf] at hrec
        simp at hrec
      | some j =>
        rw [timeoutFire, hf] at hrec
        have herase : rest.eraseIdx j = rest.filter (fun m => !(m.id == i)) := by
          have := congrArg Prod.fst hrec
          simpa using this
        simp only [timeoutFire, List.findIdx?_cons]
        rw [if_neg (by simp [h0]), findIdx?_start_add, hf]
        simp only [Option.map_some', List.eraseIdx_cons_succ]
        rw [List.filter_cons, if_pos (by simp [h0]), herase]

theorem stepQueue_absent {queue : List PendingEntry} {j : Nat} (e : WireEvent)
    (h : ∀ m ∈ queue, m.id ≠ j) :
    (∀ m ∈ (stepQueue queue e).1, m.id ≠ j) ∧
    (∀ p ∈ (stepQueue queue e).2.toList, p.1 ≠ j) := by
  cases e with
  | response r =>
    cases hfind : queue.find? (fun m => some m.id == r.id) with
    | none =>
      simp only [stepQueue, processMessage, hfind]
      exact ⟨h, by simp⟩
    | some m' =>
      have hmem : m' ∈ queue := List.mem_of_find?_eq_some hfind
      simp only [stepQueue, processMessage, hfind]
      constructor
      · intro m hm'
        exact h m (List.mem_filter.mp hm').1
      · intro p hp
        simp [Option.toList] at hp
        rw [hp]
        exact h m' hmem
  | timerFire id =>
    cases hf : queue.findIdx? (fun m => m.id == id) with
    | none =>
      simp only [stepQueue, timeoutFire, hf]
      exact ⟨h, by simp⟩
    | some k =>
      simp only [stepQueue, timeoutFire, hf]
      constructor
      · intro m hm'
        exact h m (List.mem_of_mem_eraseIdx hm')
      · intro p hp
        simp [Option.toList] at hp
        obtain ⟨m, hmem, hpm⟩ := findIdx?_some_pred hf
        have : m.id = id := by simpa using hpm
        rw [hp]
        exact this ▸ h m hmem

theorem runQueue_absent {queue : List PendingEntry} {j : Nat}
    (h : ∀ m ∈ queue, m.id ≠ j) (events : List WireEvent) :
    (runQueue queue events).2.filter (fun p => p.1 == j) = [] := by
  induction events generalizing queue with
  | nil => simp [runQueue]
  | cons e es ih =>
    obtain ⟨h1, h2⟩ := stepQueue_absent e h
    simp only [runQueue, List.filter_append, List.append_eq_nil]
    refine ⟨?_, ih h1⟩
    rw [List.filter_eq_nil_iff]
    intro p hp
    simpa using h2 p hp

end MCPClient

namespace MCPLLMBridge

/-!
Supporting lemmas about the orchestration loop.
-/

theorem forceFinal_events {σ : Type} (env : BridgeEnv σ) (s : σ)
    (message : String) (acc : List ToolResponse) :
    (forceFinal env s message acc).1 =
      [TurnEvent.finalForce (mkFinalPrompt message acc)] := by
  cases h : env.invokeWithPrompt s (mkFinalPrompt message acc) with
  | error e => simp [forceFinal, h]
  | ok p =>
    obtain ⟨resp, s2⟩ := p
    simp [forceFinal, h]

theorem forceFinal_of_ok {σ : Type} {env : BridgeEnv σ} {s : σ}
    {message : String} {acc : List ToolResponse} {resp : LLMResponse} {s2 : σ}
    (hok : env.invokeWithPrompt s (mkFinalPrompt message acc) =
      Except.ok (resp, s2)) :
    forceFinal env s message acc =
      ([TurnEvent.finalForce (mkFinalPrompt message acc)],
        Except.ok resp.content) := by
  simp [forceFinal, hok]

theorem runLoop_fuel_zero {σ : Type} (env : BridgeEnv σ) (message : String)
    (s : σ) (response : LLMResponse) (ic : Nat)
    (seen : List (List (String × String))) (acc : List ToolResponse)
    (h1 : response.isToolCall = true) (h2 : response.toolCalls ≠ []) :
    runLoop env message 0 s response ic seen acc =
      forceFinal env s message acc := by
  simp [runLoop, h1, h2]

theorem runLoop_seen {σ : Type} (env : BridgeEnv σ) (message : String)
    (fuel : Nat) (s : σ) (response : LLMResponse) (ic : Nat)
    (seen : List (List (String × String))) (acc : List ToolResponse)
    (h1 : response.isToolCall = true) (h2 : response.toolCalls ≠ [])
    (h3 : sigOf response.toolCalls ∈ seen) :
    runLoop env message fuel s response ic seen acc =
      forceFinal env s message acc := by
  cases fuel with
  | zero => simp [runLoop, h1, h2]
  | succ n =>
    have hcont : seen.contains (sigOf response.toolCalls) = true :=
      List.elem_iff.mpr h3
    by_cases hub : ic < maxIterations
    · simp [runLoop, h1, h2, hub, hcont]
      intro hmem
      exact absurd h3 hmem
    · simp [runLoop, h1, h2, hub]

theorem runLoop_dispatch_le {σ : Type} (env : BridgeEnv σ) (message : String) :
    ∀ (fuel : Nat) (s : σ) (response : LLMResponse) (ic : Nat)
      (seen : List (List (String × String))) (acc : List ToolResponse),
      (runLoop env message fuel s response ic seen acc).1.countP isDispatch
        ≤ fuel := by
  intro fuel
  induction fuel with
  | zero =>
    intro s response ic seen acc
    simp only [runLoop]
    split
    · rw [forceFinal_events]
      simp [isDispatch]
    · simp
  | succ n ih =>
    intro s response ic seen acc
    simp only [runLoop]
    split
    · split
      · rw [forceFinal_events]
        simp [isDispatch]
      · split
        · simp [List.countP_cons, isDispatch]
        · simp [List.countP_cons, isDispatch]
          exact ih _ _ _ _ _
    · split
      · rw [forceFinal_events]
        simp [isDispatch]
      · simp

end MCPLLMBridge

/-!
Claim theorems.
-/

/-- C3: for every inbound byte sequence and every way of splitting it into
chunks, feeding the chunks one at a time to `handleResponse` emits exactly
the same sequence of message lines as feeding the whole sequence as one
chunk, and leaves the same buffer; moreover the remaining buffer is always
a partial line, holding no newline. -/
theorem chunked_decoding_invariant (chunks : List (List Char)) :
    MCPClient.feedChunks [] chunks =
      MCPClient.handleResponse [] chunks.flatten ∧
    '\n' ∉ (MCPClient.feedChunks [] chunks).2 := by
  have h := MCPClient.feedChunks_eq [] chunks (by simp)
  refine ⟨?_, ?_⟩
  · rw [h, MCPClient.handleResponse_eq]
  · rw [h]
    simpa using MCPClient.extractLines_leftover_no_newline chunks.flatten

/-- C4: the first inbound response bearing a pending request's id invokes
exactly one of that request's continuations — reject with the error message
when the response carries an error, resolve with the result otherwise — and
removes the pending entry; a subsequent response with the same id, and a
response whose id matches no pending entry, is discarded silently, leaving
the queue unchanged and invoking nothing. -/
theorem response_correlated_once (queue : List MCPClient.PendingEntry)
    (r : MCPClient.InboundResponse) (i : Nat) (hid : r.id = some i) :
    ((∀ m ∈ queue, m.id ≠ i) → MCPClient.processMessage queue r = (queue, none)) ∧
    ((∃ m ∈ queue, m.id = i) →
      MCPClient.processMessage queue r =
        (queue.filter (fun m2 => !(m2.id == i)),
          some (i, match r.error with
            | some e => MCPClient.Outcome.rejected e
            | none => MCPClient.Outcome.resolved r.result)) ∧
      MCPClient.processMessage (queue.filter (fun m2 => !(m2.id == i))) r =
        (queue.filter (fun m2 => !(m2.id == i)), none)) := by
  constructor
  · intro h
    apply MCPClient.processMessage_no_match
    intro m hm
    rw [hid]
    intro heq
    exact h m hm (Option.some.inj heq)
  · intro hex
    refine ⟨MCPClient.processMessage_match hid hex, ?_⟩
    apply MCPClient.processMessage_no_match
    intro m hm
    rw [hid]
    intro heq
    have hmem := (List.mem_filter.mp hm).2
    simp [Option.some.inj heq] at hmem

/-- Concrete fixtures for the correlation witnesses: two pending requests
with ids 1 and 2, and a successful response for id 1. -/
def queueW : List MCPClient.PendingEntry := [⟨1⟩, ⟨2⟩]

def respW1 : MCPClient.InboundResponse :=
  { id := some 1, error := none, result := some (JVal.str "ok") }

theorem response_correlated_once_witness :
    respW1.id = some 1 ∧ (∃ m ∈ queueW, m.id = 1) ∧
    (MCPClient.processMessage queueW respW1 =
        ([⟨2⟩], some (1, MCPClient.Outcome.resolved (some (JVal.str "ok")))) ∧
      MCPClient.processMessage [⟨2⟩] respW1 = ([⟨2⟩], none)) :=
  ⟨rfl, ⟨⟨1⟩, List.mem_cons_self _ _, rfl⟩,
    (response_correlated_once queueW respW1 1 rfl).2
      ⟨⟨1⟩, List.mem_cons_self _ _, rfl⟩⟩

/-- C5: when the 30-second timer of a pending request fires, the pending
entry is removed from the queue and the request is rejected with the
timeout error; a matching response arriving afterwards leaves the queue
unchanged and invokes nothing, and no subsequent sequence of wire events
ever resumes the waiter for that id again. -/
theorem timeout_eviction (queue : List MCPClient.PendingEntry) (i : Nat)
    (hnodup : (queue.map MCPClient.PendingEntry.id).Nodup)
    (hm : ∃ m ∈ queue, m.id = i) :
    MCPClient.timeoutFire queue i =
      (queue.filter (fun m => !(m.id == i)),
        some (i, MCPClient.Outcome.rejected (MCPClient.timeoutMessage i))) ∧
    (∀ r : MCPClient.InboundResponse, r.id = some i →
      MCPClient.processMessage (queue.filter (fun m => !(m.id == i))) r =
        (queue.filter (fun m => !(m.id == i)), none)) ∧
    (∀ events : List MCPClient.WireEvent,
      (MCPClient.runQueue (queue.filter (fun m => !(m.id == i))) events).2.filter
        (fun p => p.1 == i) = []) := by
  refine ⟨MCPClient.timeoutFire_found hnodup hm, ?_, ?_⟩
  · intro r hr
    apply MCPClient.processMessage_no_match
    intro m hmem
    rw [hr]
    intro heq
    have hf := (List.mem_filter.mp hmem).2
    simp [Option.some.inj heq] at hf
  · intro events
    apply MCPClient.runQueue_absent
    intro m hmem heq
    have hf := (List.mem_filter.mp hmem).2
    simp [heq] at hf

theorem timeout_eviction_witness :
    ((queueW.map MCPClient.PendingEntry.id).Nodup ∧ ∃ m ∈ queueW, m.id = 1) ∧
    MCPClient.timeoutFire queueW 1 =
      ([⟨2⟩], some (1, MCPClient.Outcome.rejected (MCPClient.timeoutMessage 1))) :=
  ⟨⟨by decide, ⟨⟨1⟩, List.mem_cons_self _ _, rfl⟩⟩,
    (timeout_eviction queueW 1 (by decide)
      ⟨⟨1⟩, List.mem_cons_self _ _, rfl⟩).1⟩

/-- C9: `close` leaves every pending queue entry in place and invokes no
pending continuation (in the embedding, `close` is a pure state update that
emits no `Outcome`); a pending request is resumed only when its own timer
fires afterwards, which rejects it with the 30-second timeout error. -/
theorem close_leaves_pending (st : MCPClient.MCPClientState) (i : Nat)
    (hnodup : (st.messageQueue.map MCPClient.PendingEntry.id).Nodup)
    (hm : ∃ m ∈ st.messageQueue, m.id = i) :
    (MCPClient.close st).messageQueue = st.messageQueue ∧
    MCPClient.timeoutFire (MCPClient.close st).messageQueue i =
      (st.messageQueue.filter (fun m => !(m.id == i)),
        some (i, MCPClient.Outcome.rejected (MCPClient.timeoutMessage i))) :=
  ⟨rfl, MCPClient.timeoutFire_found hnodup hm⟩

/-- A connected client state with one pending request, used by the close
witness. -/
def stateW : MCPClient.MCPClientState :=
  { MCPClient.initialState with
      hasProcess := true, hasStdin := true, hasStdout := true,
      initialized := true, messageQueue := [⟨1⟩], nextMessageId := 2 }

theorem close_leaves_pending_witness :
    ((stateW.messageQueue.map MCPClient.PendingEntry.id).Nodup ∧
      ∃ m ∈ stateW.messageQueue, m.id = 1) ∧
    (MCPClient.close stateW).messageQueue = [⟨1⟩] ∧
    MCPClient.timeoutFire (MCPClient.close stateW).messageQueue 1 =
      ([], some (1, MCPClient.Outcome.rejected (MCPClient.timeoutMessage 1))) := by
  have h := close_leaves_pending stateW 1 (by decide)
    ⟨⟨1⟩, List.mem_cons_self _ _, rfl⟩
  exact ⟨⟨by decide, ⟨⟨1⟩, List.mem_cons_self _ _, rfl⟩⟩, h.1, h.2⟩

/-- C1: a turn performs at most `maxIterations` (3) tool-dispatch rounds;
and when the loop has used its final permitted round (fuel exhausted,
`iterationCount = maxIterations`) with the reply still requesting tools,
the turn ends through the forced-final block: the accumulated tool results
are compiled into the forcing prompt, the model is invoked once more with
it, and that reply's content is returned, with no further dispatch (the
remaining events are exactly one `finalForce`). -/
theorem iteration_ceiling {σ : Type} (env : MCPLLMBridge.BridgeEnv σ) (s : σ)
    (message : String) :
    (MCPLLMBridge.processTurn env s message).1.countP MCPLLMBridge.isDispatch
      ≤ MCPLLMBridge.maxIterations ∧
    (∀ (s2 : σ) (response : MCPLLMBridge.LLMResponse)
        (seen : List (List (String × String)))
        (acc : List MCPLLMBridge.ToolResponse),
      response.isToolCall = true → response.toolCalls ≠ [] →
      MCPLLMBridge.runLoop env message 0 s2 response
          MCPLLMBridge.maxIterations seen acc =
        MCPLLMBridge.forceFinal env s2 message acc ∧
      (MCPLLMBridge.forceFinal env s2 message acc).1 =
        [MCPLLMBridge.TurnEvent.finalForce (MCPLLMBridge.mkFinalPrompt message acc)] ∧
      (∀ (resp : MCPLLMBridge.LLMResponse) (s3 : σ),
        env.invokeWithPrompt s2 (MCPLLMBridge.mkFinalPrompt message acc) =
          Except.ok (resp, s3) →
        (MCPLLMBridge.forceFinal env s2 message acc).2 = Except.ok resp.content)) := by
  constructor
  · cases h : env.invokeWithPrompt (env.detectAndPrep s message) message with
    | error e => simp [MCPLLMBridge.processTurn, h]
    | ok p =>
      obtain ⟨response, s2⟩ := p
      simp only [MCPLLMBridge.processTurn, h]
      exact MCPLLMBridge.runLoop_dispatch_le env message _ _ _ _ _ _
  · intro s2 response seen acc h1 h2
    refine ⟨MCPLLMBridge.runLoop_fuel_zero env message s2 response _ seen acc h1 h2,
      MCPLLMBridge.forceFinal_events env s2 message acc, ?_⟩
    intro resp s3 hok
    rw [MCPLLMBridge.forceFinal_of_ok hok]

/-- Concrete fixtures for the orchestration witnesses: one tool call, a
reply that keeps requesting it, a forced-final reply that is itself a tool
call, and an environment with no registered tool owner. -/
def tcW : MCPLLMBridge.ToolCall :=
  { id := "1", name := "search", arguments := "argtext" }

def respToolW : MCPLLMBridge.LLMResponse :=
  { content := "", isToolCall := true, toolCalls := [tcW] }

def respFinalW : MCPLLMBridge.LLMResponse :=
  { content := "done", isToolCall := true, toolCalls := [tcW] }

def envW : MCPLLMBridge.BridgeEnv Unit :=
  { ownerOf := fun _ => none,
    parseArgs := fun _ => Except.ok JVal.null,
    callTool := fun _ _ _ => Except.error "nope",
    invokeWithPrompt := fun _ _ => Except.ok (respFinalW, ()),
    invoke := fun _ _ => Except.ok (respToolW, ()),
    detectAndPrep := fun s _ => s }

theorem iteration_ceiling_witness :
    (MCPLLMBridge.processTurn envW () "q").1.countP MCPLLMBridge.isDispatch
      ≤ MCPLLMBridge.maxIterations ∧
    (respToolW.isToolCall = true ∧ respToolW.toolCalls ≠ []) ∧
    MCPLLMBridge.runLoop envW "q" 0 () respToolW MCPLLMBridge.maxIterations [] [] =
      MCPLLMBridge.forceFinal envW () "q" [] := by
  have h := iteration_ceiling envW () "q"
  exact ⟨h.1, ⟨rfl, List.cons_ne_nil _ _⟩,
    (h.2 () respToolW [] [] rfl (List.cons_ne_nil _ _)).1⟩

/-- C2: within one turn, a batch of requested tool calls whose canonical
signature equals one already seen in that turn is never dispatched again:
for every iteration count and remaining fuel, the loop goes through the
forced-final block — it builds the final prompt from the original message
and all accumulated tool results, invokes the model once (the only
remaining event is that `finalForce`, no dispatch), and returns that
reply's content. -/
theorem repeated_signature_short_circuit {σ : Type}
    (env : MCPLLMBridge.BridgeEnv σ) (message : String) (fuel : Nat) (s : σ)
    (response : MCPLLMBridge.LLMResponse) (ic : Nat)
    (seen : List (List (String × String)))
    (acc : List MCPLLMBridge.ToolResponse)
    (h1 : response.isToolCall = true) (h2 : response.toolCalls ≠ [])
    (h3 : MCPLLMBridge.sigOf response.toolCalls ∈ seen) :
    MCPLLMBridge.runLoop env message fuel s response ic seen acc =
      MCPLLMBridge.forceFinal env s message acc ∧
    (MCPLLMBridge.runLoop env message fuel s response ic seen acc).1 =
      [MCPLLMBridge.TurnEvent.finalForce (MCPLLMBridge.mkFinalPrompt message acc)] ∧
    (∀ (resp : MCPLLMBridge.LLMResponse) (s2 : σ),
      env.invokeWithPrompt s (MCPLLMBridge.mkFinalPrompt message acc) =
        Except.ok (resp, s2) →
      (MCPLLMBridge.runLoop env message fuel s response ic seen acc).2 =
        Except.ok resp.content) := by
  have heq := MCPLLMBridge.runLoop_seen env message fuel s response ic seen acc h1 h2 h3
  refine ⟨heq, ?_, ?_⟩
  · rw [heq]
    exact MCPLLMBridge.forceFinal_events env s message acc
  · intro resp s2 hok
    rw [heq, MCPLLMBridge.forceFinal_of_ok hok]

theorem repeated_signature_short_circuit_witness :
    (respToolW.isToolCall = true ∧ respToolW.toolCalls ≠ [] ∧
      MCPLLMBridge.sigOf respToolW.toolCalls ∈
        [MCPLLMBridge.sigOf respToolW.toolCalls]) ∧
    MCPLLMBridge.runLoop envW "q" MCPLLMBridge.maxIterations () respToolW 1
        [MCPLLMBridge.sigOf respToolW.toolCalls] [] =
      MCPLLMBridge.forceFinal envW () "q" [] := by
  have h := repeated_signature_short_circuit envW "q" MCPLLMBridge.maxIterations
    () respToolW 1 [MCPLLMBridge.sigOf respToolW.toolCalls] [] rfl
    (List.cons_ne_nil _ _) (List.mem_singleton.mpr rfl)
  exact ⟨⟨rfl, List.cons_ne_nil _ _, List.mem_singleton.mpr rfl⟩, h.1⟩

/-- C10: on both forced-final paths (repeated signature, and fuel exhausted
with the reply still requesting tools), the loop returns the content of the
model's reply to the forcing prompt without inspecting that reply's
`isToolCall` flag: even when that reply is itself a tool call, its content
is returned as the turn's answer and no further dispatch occurs. -/
theorem forced_final_returns_reply_content {σ : Type}
    (env : MCPLLMBridge.BridgeEnv σ) (message : String) (s : σ)
    (acc : List MCPLLMBridge.ToolResponse) (resp : MCPLLMBridge.LLMResponse)
    (s2 : σ)
    (hok : env.invokeWithPrompt s (MCPLLMBridge.mkFinalPrompt message acc) =
      Except.ok (resp, s2))
    (htool : resp.isToolCall = true) :
    (∀ (fuel : Nat) (response : MCPLLMBridge.LLMResponse) (ic : Nat)
        (seen : List (List (String × String))),
      response.isToolCall = true → response.toolCalls ≠ [] →
      MCPLLMBridge.sigOf response.toolCalls ∈ seen →
      MCPLLMBridge.runLoop env message fuel s response ic seen acc =
        ([MCPLLMBridge.TurnEvent.finalForce (MCPLLMBridge.mkFinalPrompt message acc)],
          Except.ok resp.content)) ∧
    (∀ (response : MCPLLMBridge.LLMResponse)
        (seen : List (List (String × String))),
      response.isToolCall = true → response.toolCalls ≠ [] →
      MCPLLMBridge.runLoop env message 0 s response
          MCPLLMBridge.maxIterations seen acc =
        ([MCPLLMBridge.TurnEvent.finalForce (MCPLLMBridge.mkFinalPrompt message acc)],
          Except.ok resp.content)) := by
  constructor
  · intro fuel response ic seen h1 h2 h3
    rw [MCPLLMBridge.runLoop_seen env message fuel s response ic seen acc h1 h2 h3,
      MCPLLMBridge.forceFinal_of_ok hok]
  · intro response seen h1 h2
    rw [MCPLLMBridge.runLoop_fuel_zero env message s response _ seen acc h1 h2,
      MCPLLMBridge.forceFinal_of_ok hok]

theorem forced_final_returns_reply_content_witness :
    (envW.invokeWithPrompt () (MCPLLMBridge.mkFinalPrompt "q" []) =
        Except.ok (respFinalW, ()) ∧
      respFinalW.isToolCall = true ∧
      respToolW.isToolCall = true ∧ respToolW.toolCalls ≠ []) ∧
    MCPLLMBridge.runLoop envW "q" 0 () respToolW MCPLLMBridge.maxIterations [] [] =
      ([MCPLLMBridge.TurnEvent.finalForce (MCPLLMBridge.mkFinalPrompt "q" [])],
        Except.ok "done") := by
  have h := forced_final_returns_reply_content envW "q" () [] respFinalW () rfl rfl
  exact ⟨⟨rfl, rfl, rfl, List.cons_ne_nil _ _⟩,
    h.2 respToolW [] rfl (List.cons_ne_nil _ _)⟩

/-- C6: `handleToolCalls` returns one result entry per requested call, in
request order (each entry echoes its call's id), and a call that fails for
any reason produces an entry whose output is an error string instead of
aborting the batch: `Error: No MCP found for tool: <name>` when the tool
name has no registered owner, and `Error: <message>` when the arguments
fail to parse or the (30-second-raced) MCP call throws; a successful call's
entry carries its result. -/
theorem tool_batch_results_aligned {σ : Type} (env : MCPLLMBridge.BridgeEnv σ)
    (toolCalls : List MCPLLMBridge.ToolCall) :
    (MCPLLMBridge.handleToolCalls env toolCalls).length = toolCalls.length ∧
    List.Forall₂ (fun (tc : MCPLLMBridge.ToolCall)
        (r : MCPLLMBridge.ToolResponse) =>
      r.tool_call_id = tc.id ∧
      (env.ownerOf tc.name = none →
        r.output = "Error: No MCP found for tool: " ++ tc.name) ∧
      (∀ mcp, env.ownerOf tc.name = some mcp →
        (∀ e, env.parseArgs tc.arguments = Except.error e →
          r.output = "Error: " ++ e) ∧
        (∀ args, env.parseArgs tc.arguments = Except.ok args →
          (∀ e, env.callTool mcp tc.name args = Except.error e →
            r.output = "Error: " ++ e) ∧
          (∀ out, env.callTool mcp tc.name args = Except.ok out →
            r.output = out))))
      toolCalls (MCPLLMBridge.handleToolCalls env toolCalls) := by
  constructor
  · simp [MCPLLMBridge.handleToolCalls]
  · unfold MCPLLMBridge.handleToolCalls
    rw [List.forall₂_map_right_iff, List.forall₂_same]
    intro tc htc
    cases ho : env.ownerOf tc.name with
    | none =>
      refine ⟨rfl, fun _ => ?_, fun mcp hmcp => absurd hmcp (by simp [ho])⟩
      have hlit : "Error: " ++ "No MCP found for tool: " =
        "Error: No MCP found for tool: " := rfl
      show "Error: " ++ ("No MCP found for tool: " ++ tc.name) =
        "Error: No MCP found for tool: " ++ tc.name
      rw [← String.append_assoc, hlit]
    | some mcp =>
      refine ⟨?_, fun hcontra => absurd hcontra (by simp [ho]),
        fun mcp2 hmcp2 => ?_⟩
      · cases hp : env.parseArgs tc.arguments with
        | error e => simp [ho, hp]
        | ok args => cases hc : env.callTool mcp tc.name args <;> simp [ho, hp, hc]
      · have hm : mcp2 = mcp := (Option.some.inj hmcp2).symm
        subst hm
        constructor
        · intro e he
          simp [ho, he]
        · intro args hargs
          constructor
          · intro e he
            simp [ho, hargs, he]
          · intro out hout
            simp [ho, hargs, hout]

/-- Concrete fixtures for the C6 witness: a batch exercising every branch
of `handleToolCalls` — a tool with no registered owner, an argument string
that fails to parse, a tool whose MCP call throws, and a successful call. -/
def envT : MCPLLMBridge.BridgeEnv Unit :=
  { ownerOf := fun n => if n = "missing" then none else some "primary",
    parseArgs := fun a =>
      if a = "badargs" then Except.error "Unexpected token" else Except.ok JVal.null,
    callTool := fun _ n _ =>
      if n = "boom" then Except.error "MCP call timed out after 30 seconds"
      else Except.ok "result text",
    invokeWithPrompt := fun _ _ => Except.ok (respFinalW, ()),
    invoke := fun _ _ => Except.ok (respToolW, ()),
    detectAndPrep := fun s _ => s }

def callsT : List MCPLLMBridge.ToolCall :=
  [{ id := "1", name := "missing", arguments := "argtext" },
   { id := "2", name := "search", arguments := "badargs" },
   { id := "3", name := "boom", arguments := "argtext" },
   { id := "4", name := "search", arguments := "argtext" }]

theorem tool_batch_results_aligned_witness :
    ((MCPLLMBridge.handleToolCalls envT callsT).map
        MCPLLMBridge.ToolResponse.output =
      ["Error: No MCP found for tool: missing", "Error: Unexpected token",
        "Error: MCP call timed out after 30 seconds", "result text"]) ∧
    (MCPLLMBridge.handleToolCalls envT callsT).length = callsT.length ∧
    List.Forall₂ (fun (tc : MCPLLMBridge.ToolCall)
        (r : MCPLLMBridge.ToolResponse) =>
      r.tool_call_id = tc.id ∧
      (envT.ownerOf tc.name = none →
        r.output = "Error: No MCP found for tool: " ++ tc.name) ∧
      (∀ mcp, envT.ownerOf tc.name = some mcp →
        (∀ e, envT.parseArgs tc.arguments = Except.error e →
          r.output = "Error: " ++ e) ∧
        (∀ args, envT.parseArgs tc.arguments = Except.ok args →
          (∀ e, envT.callTool mcp tc.name args = Except.error e →
            r.output = "Error: " ++ e) ∧
          (∀ out, envT.callTool mcp tc.name args = Except.ok out →
            r.output = out))))
      callsT (MCPLLMBridge.handleToolCalls envT callsT) :=
  ⟨rfl, tool_batch_results_aligned envT callsT⟩

/-- C7: `processMessage` always returns a string: when the turn body throws
an error `e`, the outermost catch converts it into the string
`Error processing message: <e>`; otherwise the turn body's answer is
returned as is. -/
theorem turn_always_returns_string {σ : Type} (env : MCPLLMBridge.BridgeEnv σ)
    (s : σ) (message : String) :
    (∃ e, (MCPLLMBridge.processTurn env s message).2 = Except.error e ∧
      MCPLLMBridge.processMessage env s message =
        "Error processing message: " ++ e) ∨
    (∃ r, (MCPLLMBridge.processTurn env s message).2 = Except.ok r ∧
      MCPLLMBridge.processMessage env s message = r) := by
  cases h : (MCPLLMBridge.processTurn env s message).2 with
  | error e => exact Or.inl ⟨e, rfl, by simp [MCPLLMBridge.processMessage, h]⟩
  | ok r => exact Or.inr ⟨r, rfl, by simp [MCPLLMBridge.processMessage, h]⟩

end Bridge
